import Mathlib

/-!
Verification of the metadata inference engine of the auto-catalog tool
(src/auto_catalog.py). Texts are modelled as lists of characters; every
Python regular-expression use in the source is hand-compiled into an
explicit matching function with the same leftmost-match, greedy and
backtracking behaviour, restricted to ASCII word characters and digits
(the source relies on Unicode classes only incidentally).
-/

namespace AutoCatalog

/-- Sentinel used by the source for any field it cannot determine. -/
def UNKNOWN : List Char := "Unknown".toList

/-- Python whitespace, as recognised by str.strip and the regex class \s. -/
def isPySpace (c : Char) : Bool :=
  c == ' ' || c == '\t' || c == '\n' || c == '\r' ||
  c.toNat == 0x0b || c.toNat == 0x0c ||
  (0x1c ≤ c.toNat && c.toNat ≤ 0x1f) || c.toNat == 0x85 || c.toNat == 0xa0 ||
  c.toNat == 0x1680 || (0x2000 ≤ c.toNat && c.toNat ≤ 0x200a) ||
  c.toNat == 0x2028 || c.toNat == 0x2029 || c.toNat == 0x202f ||
  c.toNat == 0x205f || c.toNat == 0x3000

/-- Regex word character (the class \w), ASCII fragment. -/
def isWordCh (c : Char) : Bool := c.isAlphanum || c == '_'

/-- Python str.strip: remove leading and trailing whitespace. -/
def pyStrip (s : List Char) : List Char :=
  ((s.dropWhile isPySpace).reverse.dropWhile isPySpace).reverse

/-- Python str.lower, ASCII fragment. -/
def pyLower (s : List Char) : List Char := s.map Char.toLower

/-- Case-insensitive literal match of a (lowercase) pattern at the head of
the text; returns the rest of the text on success. -/
def ciStarts : List Char → List Char → Option (List Char)
  | [], t => some t
  | _ :: _, [] => none
  | p :: ps, c :: cs => if p == c.toLower then ciStarts ps cs else none

/-- Python truthiness fallback, as in the idiom (value or "Unknown"). -/
def pyOr (a b : List Char) : List Char := if a.isEmpty then b else a

/-- The substitution re.sub of a class [,;] with a trailing-whitespace-and-end
anchor, applied by the source to an already stripped string: it removes the
final character exactly when it is a comma or semicolon. -/
def dropTrailingSep (s : List Char) : List Char :=
  match s.getLast? with
  | some c => if c == ',' || c == ';' then s.dropLast else s
  | none => s

/-- Whether a string ends in a comma or semicolon. -/
def endsWithSep (s : List Char) : Bool :=
  match s.getLast? with
  | some c => c == ',' || c == ';'
  | none => false

/-- Tail of every honorific alternative once its letters are consumed: the
pattern remainder is an optional dot, a word boundary and one more optional
dot.  Whatever its neighbours, a following dot extends the match by exactly
one character; a following word character makes the boundary fail; anything
else ends the match at the letters. -/
def honTail (n : Nat) : List Char → Option Nat
  | [] => some n
  | c :: _ => if c == '.' then some (n + 1) else if isWordCh c then none else some n

/-- One honorific alternative made of plain letters (Dr, Prof, Professor). -/
def honAlt (w : List Char) (s : List Char) : Option Nat :=
  match ciStarts w s with
  | some rest => honTail w.length rest
  | none => none

/-- An honorific alternative with an optional interior dot before a final
letter group (the Ph.D and M.D forms). -/
def honAltInner (w1 w2 : List Char) (s : List Char) : Option Nat :=
  match ciStarts w1 s with
  | none => none
  | some r1 =>
    match r1 with
    | '.' :: r2 =>
      match ciStarts w2 r2 with
      | some r3 => honTail (w1.length + 1 + w2.length) r3
      | none => none
    | _ =>
      match ciStarts w2 r1 with
      | some r3 => honTail (w1.length + w2.length) r3
      | none => none

/-- Length of the honorific-pattern match at the head of s, if any, with the
alternatives tried in the order of the source pattern:
Dr, Prof, Professor, Ph.D, M.D (each case-insensitively, each with the
optional trailing dots).  The word boundary before the match is checked by
the caller. -/
def honMatchLen (s : List Char) : Option Nat :=
  (honAlt "dr".toList s) <|> (honAlt "prof".toList s) <|>
  (honAlt "professor".toList s) <|>
  (honAltInner "ph".toList "d".toList s) <|>
  (honAltInner "m".toList "d".toList s)

/-- Last character of the first n characters of a list (default space). -/
def lastOfTake (n : Nat) (l : List Char) : Char := (l.take n).getLastD ' '

/-- Scanner of re.sub for the honorific pattern: walk the text left to
right, removing each match and resuming right after it; pw records whether
the previous character of the original text is a word character (for the
leading word boundary).  Fuel-driven; fuel equal to the length suffices
since every step consumes at least one character. -/
def honSubGo : Nat → Bool → List Char → List Char
  | 0, _, s => s
  | _ + 1, _, [] => []
  | f + 1, pw, c :: cs =>
    match (if pw then none else honMatchLen (c :: cs)) with
    | some n => honSubGo f (isWordCh (lastOfTake n (c :: cs))) (cs.drop (n - 1))
    | none => c :: honSubGo f (isWordCh c) cs

/-- re.sub of the honorific pattern with the empty string. -/
def honSub (s : List Char) : List Char := honSubGo s.length false s

/-- Whether the honorific pattern matches anywhere in the text (pw as in
honSubGo). -/
def hasHonAux : Bool → List Char → Bool
  | _, [] => false
  | pw, c :: cs => (!pw && (honMatchLen (c :: cs)).isSome) || hasHonAux (isWordCh c) cs

/-- Scanner of re.sub for runs of two or more whitespace characters: a run
of length at least two becomes one space, a single whitespace character is
kept as it is.  Fuel-driven as honSubGo. -/
def collapseGo : Nat → List Char → List Char
  | 0, _ => []
  | _ + 1, [] => []
  | f + 1, c :: cs =>
    if isPySpace c then
      match cs with
      | [] => [c]
      | d :: _ =>
        if isPySpace d then ' ' :: collapseGo f (cs.dropWhile isPySpace)
        else c :: collapseGo f cs
    else c :: collapseGo f cs

/-- re.sub replacing every whitespace run of length at least two with one
space. -/
def collapseWs (s : List Char) : List Char := collapseGo s.length s

/-- The name normalizer of the source: strip, remove one trailing comma or
semicolon, delete honorific tokens, collapse whitespace runs, strip again,
and fall back to the sentinel when nothing remains. -/
def clean_name (s : List Char) : List Char :=
  let s3 := pyStrip (collapseWs (honSub (dropTrailingSep (pyStrip s))))
  if s3.isEmpty then UNKNOWN else s3

/-! ### Title guesser -/

/-- Whether a character is cased (ASCII fragment of the Python notion). -/
def isCasedCh (c : Char) : Bool := c.isUpper || c.isLower

/-- Python str.istitle, walk with a flag for a cased previous character:
uppercase may only follow an uncased character, lowercase only a cased
one. -/
def pyIsTitleAux : Bool → List Char → Bool
  | _, [] => true
  | prevCased, c :: cs =>
    if c.isUpper then !prevCased && pyIsTitleAux true cs
    else if c.isLower then prevCased && pyIsTitleAux true cs
    else pyIsTitleAux false cs

/-- Python str.istitle: at least one cased character and the casing walk
succeeds. -/
def pyIsTitle (s : List Char) : Bool := s.any isCasedCh && pyIsTitleAux false s

/-- Python str.isupper: at least one cased character and no lowercase
one. -/
def pyIsUpper (s : List Char) : Bool :=
  s.any isCasedCh && s.all (fun c => !isCasedCh c || c.isUpper)

/-- Case-insensitive whole word at the head of s: the literal word followed
by a word boundary (the boundary before it is checked by the scanner). -/
def wordAt (w : List Char) (s : List Char) : Bool :=
  match ciStarts w s with
  | some [] => true
  | some (c :: _) => !isWordCh c
  | none => false

/-- Generic scanner of re.search for a pattern opening with a word
boundary: try the head matcher at every position whose previous character
is not a word character, left to right, first success wins. -/
def scanWordB {α : Type} (f : List Char → Option α) : Bool → List Char → Option α
  | _, [] => none
  | pw, c :: cs => (if pw then none else f (c :: cs)) <|> scanWordB f (isWordCh c) cs

/-- Keywords whose whole-word presence disqualifies a title candidate. -/
def bannedWords : List (List Char) :=
  ["by", "edited", "editor", "copyright", "published", "publisher",
   "isbn", "issn"].map String.toList

/-- re.search for the banned-keyword pattern over a candidate line. -/
def hasBannedWord (t : List Char) : Bool :=
  (scanWordB
    (fun s => if bannedWords.any (fun w => wordAt w s) then some () else none)
    false t).isSome

/-- Character class accepted by the well-formed-line bonus of the title
scorer: word characters, space, and the listed punctuation. -/
def titleCharOk (c : Char) : Bool :=
  isWordCh c || c == ' ' || c == ':' || c == ';' || c == ',' || c == '\'' ||
  c == '&' || c == '-' || c == '(' || c == ')' || c == '.' || c == '!' ||
  c == '?'

/-- re.match of the anchored character-class pattern: the whole line is
made of accepted characters and is nonempty. -/
def titleCharsMatch (s : List Char) : Bool := !s.isEmpty && s.all titleCharOk

/-- Integer score of a stripped candidate line, as in the source. -/
def lineScore (t : List Char) : Int :=
  (if pyIsTitle t then 2 else 0) +
  (if pyIsUpper t ∧ t.length ≤ 80 then 1 else 0) +
  (if 10 ≤ t.length ∧ t.length ≤ 120 then 1 else 0) +
  (if titleCharsMatch t then 1 else 0) -
  (if 140 < t.length then 1 else 0)

/-- The title guesser: score the first 25 lines, keep scores of at least
two, and return the candidate of the stable sort by descending score then
ascending length - that is, the first candidate strictly better than every
earlier one. -/
def guess_title (lines : List (List Char)) : List Char :=
  let cand := (lines.take 25).filterMap (fun ln =>
    let t := pyStrip ln
    if t.length < 4 then none
    else if hasBannedWord t then none
    else if 2 ≤ lineScore t then some (lineScore t, t) else none)
  match cand with
  | [] => UNKNOWN
  | c :: cs =>
    (cs.foldl (fun best x =>
      if best.1 < x.1 ∨ (x.1 = best.1 ∧ x.2.length < best.2.length) then x
      else best) c).2

/-! ### Person extractor -/

/-- Capture group of a labelled-person pattern: greedy whitespace, then a
nonempty greedy run of characters other than newline and comma.  When
everything after the whitespace is excluded, the greedy whitespace
backtracks one character at a time, so the capture degenerates to the last
whitespace character that is not itself a newline. -/
def captureRest (rest : List Char) : Option (List Char) :=
  let cap := (rest.dropWhile isPySpace).takeWhile
    (fun c => !(c == '\n' || c == ','))
  if !cap.isEmpty then some cap
  else
    match ((rest.takeWhile isPySpace).reverse.dropWhile (· == '\n')) with
    | w :: _ => some [w]
    | [] => none

/-- Author-pattern matcher at a position: the alternatives By, Written by,
Author: and Authors: in source order (the optional s tried greedily), each
followed by the capture. -/
def authorMatchAt (s : List Char) : Option (List Char) :=
  (ciStarts "by".toList s >>= captureRest) <|>
  (ciStarts "written by".toList s >>= captureRest) <|>
  (ciStarts "authors:".toList s >>= captureRest) <|>
  (ciStarts "author:".toList s >>= captureRest)

/-- Editor-pattern matcher at a position: Edited by, Editors:, Editor:. -/
def editorMatchAt (s : List Char) : Option (List Char) :=
  (ciStarts "edited by".toList s >>= captureRest) <|>
  (ciStarts "editors:".toList s >>= captureRest) <|>
  (ciStarts "editor:".toList s >>= captureRest)

/-- Case-insensitive substring search (re.search of a plain word with no
boundary), used on the embedded-metadata author. -/
def containsCI (pat : List Char) : List Char → Bool
  | [] => (ciStarts pat ([] : List Char)).isSome
  | c :: cs => (ciStarts pat (c :: cs)).isSome || containsCI pat cs

/-- The person extractor: author from the first labelled match, else from
the embedded author when it is nonempty and does not contain the word
unknown; editor from its own labelled match; an editor equal to the author
case-insensitively is suppressed. -/
def find_people (text : List Char) (metaAuthor : Option (List Char)) :
    List Char × List Char :=
  let author :=
    match scanWordB authorMatchAt false text with
    | some cap => clean_name cap
    | none =>
      match metaAuthor with
      | some ma =>
        if !ma.isEmpty && !containsCI "unknown".toList ma then clean_name ma
        else UNKNOWN
      | none => UNKNOWN
  let editor0 :=
    match scanWordB editorMatchAt false text with
    | some cap => clean_name cap
    | none => UNKNOWN
  let editor :=
    if author ≠ UNKNOWN ∧ pyLower editor0 = pyLower author then UNKNOWN
    else editor0
  (author, editor)

/-! ### Year extractor -/

/-- Digit test of the regex class \d (ASCII fragment), via code points. -/
def isDigitCh (c : Char) : Bool := 48 ≤ c.toNat && c.toNat ≤ 57

/-- Code point between two bounds, for the digit classes of the year
pattern. -/
def between (lo hi : Nat) (c : Char) : Bool := lo ≤ c.toNat && c.toNat ≤ hi

/-- The three alternatives of the year token: 1[5-9] then two digits,
20[0-2] then a digit, or 203[0-5] (character classes written as code-point
ranges: 53-57 is 5-9, 48-50 is 0-2, 48-53 is 0-5). -/
def yearDigitsOk (a b c d : Char) : Bool :=
  (a == '1' && between 53 57 b && isDigitCh c && isDigitCh d) ||
  (a == '2' && b == '0' && between 48 50 c && isDigitCh d) ||
  (a == '2' && b == '0' && c == '3' && between 48 53 d)

/-- Negative lookahead of the year token: no digit directly after. -/
def nextNotDigit : List Char → Bool
  | [] => true
  | e :: _ => !isDigitCh e

/-- Year token at the head of s, with the negative lookbehind passed in as
a flag for the previous character being a digit. -/
def yearTokAt (prevIsDigit : Bool) (s : List Char) : Option (List Char) :=
  if prevIsDigit then none
  else
    match s with
    | a :: b :: c :: d :: rest =>
      if yearDigitsOk a b c d && nextNotDigit rest then some [a, b, c, d]
      else none
    | _ => none

/-- Leftmost year token in a text (the flag tracks the previous
character). -/
def firstYearTok : Bool → List Char → Option (List Char)
  | _, [] => none
  | pd, c :: cs => yearTokAt pd (c :: cs) <|> firstYearTok (isDigitCh c) cs

/-- Whether the character at index i is a digit (false past the end). -/
def digitAtIdx (s : List Char) (i : Nat) : Bool :=
  match s.get? i with
  | some c => isDigitCh c
  | none => false

/-- Greedy dot-any gap of the marker pattern: the largest gap of at most 60
characters after the marker such that a year token follows; the lookbehind
for a gap of zero is the last marker character, never a digit for the five
markers of the source. -/
def gapYear : Nat → List Char → Option Nat
  | 0, after => if (yearTokAt false after).isSome then some 0 else none
  | g + 1, after =>
    if (yearTokAt (digitAtIdx after g) (after.drop (g + 1))).isSome then
      some (g + 1)
    else gapYear g after

/-- Leftmost match of marker-then-gap-then-year; returns the whole matched
span (group zero), taken from the original text. -/
def markerScanAux (term : List Char) : List Char → Option (List Char)
  | [] => none
  | c :: cs =>
    (match ciStarts term (c :: cs) with
     | some after =>
       match gapYear 60 after with
       | some g => some ((c :: cs).take (term.length + g + 4))
       | none => none
     | none => none)
    <|> markerScanAux term cs

/-- The marker terms of the source, in priority order. -/
def yearTerms : List (List Char) :=
  ["©", "copyright", "first published", "published", "reprinted"].map
    String.toList

/-- The marker loop of the year extractor: for each term in order, search
the marker pattern, then re-search the year inside the matched span and
return it; afterwards fall back to the leftmost standalone year token, or
the sentinel. -/
def findYearGo : List (List Char) → List Char → List Char
  | [], text =>
    match firstYearTok false text with
    | some t => t
    | none => UNKNOWN
  | term :: ts, text =>
    match markerScanAux term text with
    | some g0 =>
      match firstYearTok false g0 with
      | some y => y
      | none => findYearGo ts text
    | none => findYearGo ts text

/-- The year extractor of the source. -/
def find_year (text : List Char) : List Char := findYearGo yearTerms text

/-! ### Publisher extractor -/

/-- Line-break characters recognised by Python str.splitlines. -/
def isLineBreakCh (c : Char) : Bool :=
  c == '\n' || c == '\r' || c.toNat == 0x0b || c.toNat == 0x0c ||
  c.toNat == 0x1c || c.toNat == 0x1d || c.toNat == 0x1e || c.toNat == 0x85 ||
  c.toNat == 0x2028 || c.toNat == 0x2029

/-- What follows one line break: a carriage return followed by a newline
counts as one break; a trailing break adds no empty final line; otherwise
the continuation resumes on the remaining text. -/
def splitAfterBreak (cont : List Char → List (List Char)) (c : Char)
    (cs : List Char) : List (List Char) :=
  match c, cs with
  | '\r', '\n' :: cs' =>
    match cs' with
    | [] => []
    | _ :: _ => cont cs'
  | _, _ =>
    match cs with
    | [] => []
    | _ :: _ => cont cs

/-- Worker of splitlines: acc holds the current line reversed.
Fuel-driven; fuel equal to the text length suffices. -/
def splitGo : Nat → List Char → List Char → List (List Char)
  | 0, acc, _ => [acc.reverse]
  | _ + 1, acc, [] => [acc.reverse]
  | f + 1, acc, c :: cs =>
    if isLineBreakCh c then acc.reverse :: splitAfterBreak (splitGo f []) c cs
    else splitGo f (c :: acc) cs

/-- Python str.splitlines. -/
def pySplitlines : List Char → List (List Char)
  | [] => []
  | c :: cs => splitGo (c :: cs).length [] (c :: cs)

/-- Case-sensitive literal prefix test (re.split is called without the
ignore-case flag in the source). -/
def litStarts : List Char → List Char → Bool
  | [], _ => true
  | _ :: _, [] => false
  | p :: ps, c :: cs => p == c && litStarts ps cs

/-- Separator alternatives of the publisher split, case-sensitive. -/
def sepHeads : List (List Char) :=
  [";", "|", "•", "Tel:", "Phone:", "Fax:", "Email:", "www."].map
    String.toList

/-- First segment of re.split on the separator alternatives: the prefix up
to the leftmost separator occurrence. -/
def firstSegment : List Char → List Char
  | [] => []
  | c :: cs =>
    if sepHeads.any (fun p => litStarts p (c :: cs)) then []
    else c :: firstSegment cs

/-- Continuation of the publisher-label pattern after the label: greedy
whitespace, a mandatory colon or hyphen, then greedy whitespace and a
nonempty dot-any capture; as in captureRest, an all-excluded remainder
makes the greedy whitespace back off to a single non-newline whitespace
character. -/
def labelTail (rest : List Char) : Option (List Char) :=
  match rest.dropWhile isPySpace with
  | c :: r2 =>
    if c == ':' || c == '-' then
      let cap := (r2.dropWhile isPySpace).takeWhile (fun e => !(e == '\n'))
      if !cap.isEmpty then some cap
      else
        match ((r2.takeWhile isPySpace).reverse.dropWhile (· == '\n')) with
        | w :: _ => some [w]
        | [] => none
    else none
  | [] => none

/-- Publisher-label matcher at a position: the label alternatives in source
order, each with the separator-and-capture continuation. -/
def pubLabelAt (s : List Char) : Option (List Char) :=
  (ciStarts "published by".toList s >>= labelTail) <|>
  (ciStarts "publisher".toList s >>= labelTail) <|>
  (ciStarts "imprint".toList s >>= labelTail) <|>
  (ciStarts "printed by".toList s >>= labelTail)

/-- Primary pass on one line: match the labelled pattern, truncate the
capture at the first separator, strip, collapse whitespace, and accept a
length between 2 and 120. -/
def lineCand (ln : List Char) : Option (List Char) :=
  match scanWordB pubLabelAt false ln with
  | some g2 =>
    let cand := collapseWs (pyStrip (firstSegment (pyStrip g2)))
    if 2 ≤ cand.length ∧ cand.length ≤ 120 then some cand else none
  | none => none

/-- The cleanup the primary pass applies to a captured remainder: strip,
truncate at the first separator, strip again, collapse whitespace runs. -/
def pubClean (r : List Char) : List Char :=
  collapseWs (pyStrip (firstSegment (pyStrip r)))

/-- Whether a case-insensitive pattern is certain to fail against any text
whose lowercasing starts with low: some position inside both lists holds
different characters. -/
def lowNotPre : List Char → List Char → Bool
  | p :: ps, l :: ls => if p == l then lowNotPre ps ls else true
  | _, _ => false

/-- Keywords of the fallback pass. -/
def pubKeywords : List (List Char) :=
  ["press", "publications", "publishers", "university", "house",
   "books"].map String.toList

/-- Fallback pass on one line: whole-word keyword present and stripped
length between 2 and 120. -/
def lineFallback (ln : List Char) : Option (List Char) :=
  if (scanWordB
      (fun s => if pubKeywords.any (fun w => wordAt w s) then some () else none)
      false ln).isSome then
    let s := pyStrip ln
    if 2 ≤ s.length ∧ s.length ≤ 120 then some s else none
  else none

/-- First success of f over a list. -/
def firstSomeList {α β : Type} (f : α → Option β) : List α → Option β
  | [] => none
  | x :: xs => f x <|> firstSomeList f xs

/-- The publisher extractor: primary pass over all lines, then the keyword
fallback over the first 80 lines, then the sentinel. -/
def find_publisher (text : List Char) : List Char :=
  let lines := pySplitlines text
  match firstSomeList lineCand lines with
  | some c => c
  | none =>
    match firstSomeList lineFallback (lines.take 80) with
    | some s => s
    | none => UNKNOWN

/-! ### Language detector -/

/-- The script buckets of the language detector. -/
inductive Script where
  | dev | ben | gur | guj | ori | tam | tel | kan | mal | cyr | ara | lat
deriving DecidableEq, Repr, Fintype

/-- Classification of one character by the code-point tests of the source,
in their order; characters outside every range are not counted. -/
def classifyChar (c : Char) : Option Script :=
  let cp := c.toNat
  if 0x0900 ≤ cp ∧ cp ≤ 0x097F then some .dev
  else if 0x0980 ≤ cp ∧ cp ≤ 0x09FF then some .ben
  else if 0x0A00 ≤ cp ∧ cp ≤ 0x0A7F then some .gur
  else if 0x0A80 ≤ cp ∧ cp ≤ 0x0AFF then some .guj
  else if 0x0B00 ≤ cp ∧ cp ≤ 0x0B7F then some .ori
  else if 0x0B80 ≤ cp ∧ cp ≤ 0x0BFF then some .tam
  else if 0x0C00 ≤ cp ∧ cp ≤ 0x0C7F then some .tel
  else if 0x0C80 ≤ cp ∧ cp ≤ 0x0CFF then some .kan
  else if 0x0D00 ≤ cp ∧ cp ≤ 0x0D7F then some .mal
  else if 0x0400 ≤ cp ∧ cp ≤ 0x04FF then some .cyr
  else if 0x0600 ≤ cp ∧ cp ≤ 0x06FF then some .ara
  else if cp ≤ 0x024F then some .lat
  else none

/-- Count of one bucket over a character sample. -/
def scriptCount (s5 : List Char) (b : Script) : Nat :=
  s5.countP (fun c => classifyChar c == some b)

/-- Insertion order of the counts dictionary of the source, after its
first key Devanagari. -/
def scriptTail : List Script :=
  [.ben, .gur, .guj, .ori, .tam, .tel, .kan, .mal, .lat, .ara, .cyr]

/-- Python max over the dictionary items keyed by count: the fold keeps the
current bucket unless a later one is strictly larger, so the first bucket
in insertion order attaining the maximum wins. -/
def maxScript (s5 : List Char) : Script × Nat :=
  scriptTail.foldl
    (fun best b =>
      if best.2 < scriptCount s5 b then (b, scriptCount s5 b) else best)
    (Script.dev, scriptCount s5 Script.dev)

/-- Bucket-to-label mapping of the source. -/
def scriptLabel : Script → List Char
  | .dev => "Hindi".toList
  | .ben => "Bengali".toList
  | .gur => "Punjabi".toList
  | .guj => "Gujarati".toList
  | .ori => "Odia".toList
  | .tam => "Tamil".toList
  | .tel => "Telugu".toList
  | .kan => "Kannada".toList
  | .mal => "Malayalam".toList
  | .ara => "Arabic".toList
  | .cyr => "Russian".toList
  | .lat => "English".toList

/-- The language detector: short samples give the sentinel, at most the
first 5000 characters are examined, a winning count below 20 gives the
sentinel, else the label of the winning bucket. -/
def guess_language (sample : List Char) : List Char :=
  if sample.isEmpty ∨ (pyStrip sample).length < 40 then UNKNOWN
  else
    let s5 := sample.take 5000
    let m := maxScript s5
    if m.2 < 20 then UNKNOWN else scriptLabel m.1

/-! ### Inference engine -/

/-- The data the engine reads from an opened document: embedded metadata
title and author, the extracted front text of the first 8 pages, the front
text extended to 12 pages, and the page count. -/
structure DocData where
  metaTitle : Option (List Char)
  metaAuthor : Option (List Char)
  text8 : List Char
  text12 : List Char
  pageCount : Nat

/-- The output record; one field per column the source emits. -/
structure CatalogRecord where
  bookTitle : List Char
  author : List Char
  editor : List Char
  yearOfPublishing : List Char
  publisher : List Char
  language : List Char
  numberOfPages : List Char
  format : List Char
deriving DecidableEq, Repr

/-- Decimal digits of a natural number (the Python str of the page count);
fuel-driven, the number is its own ample fuel. -/
def natStrGo : Nat → Nat → List Char → List Char
  | 0, n, acc => Char.ofNat (48 + n % 10) :: acc
  | f + 1, n, acc =>
    if n < 10 then Char.ofNat (48 + n) :: acc
    else natStrGo f (n / 10) (Char.ofNat (48 + n % 10) :: acc)

/-- Python str of a natural number. -/
def natStr (n : Nat) : List Char := natStrGo n n []

/-- The all-sentinel record returned when opening or reading the document
raises. -/
def failRecord : CatalogRecord :=
  ⟨UNKNOWN, UNKNOWN, UNKNOWN, UNKNOWN, UNKNOWN, UNKNOWN, UNKNOWN,
   "PDF".toList⟩

/-- The inference engine parse_pdf: a failed document read yields the
all-sentinel record; otherwise the front text (replaced by the OCR text
when OCR is on, the front text is missing or short, and the OCR text is
longer) feeds the extractors; the embedded title is used unless blank or a
placeholder; the language sample is the selected text for documents of at
most 8 pages and the 12-page front text otherwise; every textual field
falls back to the sentinel when empty, and the page count of zero becomes
the sentinel. -/
def parse_pdf (doc : Except Unit DocData) (useOcr : Bool)
    (ocrText : List Char) : CatalogRecord :=
  match doc with
  | .error _ => failRecord
  | .ok d =>
    let t0 := d.text8
    let text :=
      if useOcr ∧ (t0.isEmpty ∨ t0.length < 40) ∧ t0.length < ocrText.length
      then ocrText else t0
    let mt := pyStrip (d.metaTitle.getD [])
    let title :=
      if mt.isEmpty ∨ pyLower mt = [] ∨ pyLower mt = "untitled".toList ∨
          pyLower mt = "unknown".toList then
        pyOr (guess_title ((pySplitlines text).filter
          (fun ln => !(pyStrip ln).isEmpty))) UNKNOWN
      else mt
    let people := find_people text d.metaAuthor
    let year := find_year text
    let publisher := find_publisher text
    let langText := if d.pageCount ≤ 8 then text else d.text12
    let language := guess_language langText
    ⟨pyOr title UNKNOWN, pyOr people.1 UNKNOWN, pyOr people.2 UNKNOWN,
     pyOr year UNKNOWN, pyOr publisher UNKNOWN, pyOr language UNKNOWN,
     if d.pageCount ≠ 0 then natStr d.pageCount else UNKNOWN,
     "PDF".toList⟩

/-- Numeric value of a digit string (for stating the year-range
property). -/
def yearVal (t : List Char) : Nat :=
  t.foldl (fun acc c => acc * 10 + (c.toNat - 48)) 0

/-! ### Helper lemmas -/

theorem pyOr_unknown_ne_nil (a : List Char) : pyOr a UNKNOWN ≠ [] := by
  unfold pyOr
  split
  · decide
  · rename_i h
    intro hnil
    subst hnil
    simp at h

theorem natStrGo_ne_nil (f n : Nat) (acc : List Char) :
    natStrGo f n acc ≠ [] := by
  induction f generalizing n acc with
  | zero => simp [natStrGo]
  | succ f ih =>
    unfold natStrGo
    split
    · simp
    · exact ih _ _

theorem natStr_ne_nil (n : Nat) : natStr n ≠ [] := natStrGo_ne_nil n n []

/-! ### Claims C1 to C4 and C8 -/

/-- C1: for every input document, the record returned by parse_pdf has all
eight fields present (guaranteed by the record type) and bound to a
nonempty string, and the Format field is always the constant PDF. -/
theorem c1_parse_pdf_record_populated (doc : Except Unit DocData)
    (useOcr : Bool) (ocrText : List Char) :
    (parse_pdf doc useOcr ocrText).bookTitle ≠ [] ∧
    (parse_pdf doc useOcr ocrText).author ≠ [] ∧
    (parse_pdf doc useOcr ocrText).editor ≠ [] ∧
    (parse_pdf doc useOcr ocrText).yearOfPublishing ≠ [] ∧
    (parse_pdf doc useOcr ocrText).publisher ≠ [] ∧
    (parse_pdf doc useOcr ocrText).language ≠ [] ∧
    (parse_pdf doc useOcr ocrText).numberOfPages ≠ [] ∧
    (parse_pdf doc useOcr ocrText).format = "PDF".toList := by
  cases doc with
  | error e =>
    rw [show parse_pdf (Except.error e) useOcr ocrText = failRecord from rfl]
    decide
  | ok d =>
    refine ⟨pyOr_unknown_ne_nil _, pyOr_unknown_ne_nil _,
      pyOr_unknown_ne_nil _, pyOr_unknown_ne_nil _, pyOr_unknown_ne_nil _,
      pyOr_unknown_ne_nil _, ?_, rfl⟩
    show (if d.pageCount ≠ 0 then natStr d.pageCount else UNKNOWN) ≠ []
    split
    · exact natStr_ne_nil _
    · decide

/-- C2: when reading the document raises (modelled as the error case of the
input), parse_pdf returns the record with every field the sentinel Unknown
except Format, which is PDF; as a total function it propagates no error. -/
theorem c2_parse_pdf_failure_contained (useOcr : Bool) (ocrText : List Char) :
    parse_pdf (Except.error ()) useOcr ocrText =
      ⟨UNKNOWN, UNKNOWN, UNKNOWN, UNKNOWN, UNKNOWN, UNKNOWN, UNKNOWN,
       "PDF".toList⟩ := rfl

/-- C3 counterexample: on the three-line input of the claim the title
guesser returns the all-caps line INTRODUCTION, not the claimed mixed-case
line. -/
theorem c3_counterexample :
    guess_title ["INTRODUCTION".toList, "The Art of Systems Design".toList,
        "by A. Author".toList] ≠ "The Art of Systems Design".toList := by
  decide

/-- C3 amended: the by line is rejected, but the Python title-case test
fails on the mixed-case line (the word of is lowercase), which therefore
scores 2, while the all-caps line scores 3 (upper-case, length and
character-class bonuses) and wins. -/
theorem c3_amended_title_guess :
    guess_title ["INTRODUCTION".toList, "The Art of Systems Design".toList,
        "by A. Author".toList] = "INTRODUCTION".toList := by
  decide

/-- C4 counterexample: on the claimed input the editor field is not the
claimed Jane Roe. -/
theorem c4_counterexample :
    (find_people
        "Written by John A. Smith, Edited by Dr. Jane Roe.".toList
        none).2 ≠ "Jane Roe".toList := by
  decide

/-- C4 amended: the author is John A. Smith and the editor is Jane Roe.
with the trailing period kept, because the name normalizer strips only a
trailing comma or semicolon, never a period. -/
theorem c4_amended_find_people :
    find_people "Written by John A. Smith, Edited by Dr. Jane Roe.".toList
        none =
      ("John A. Smith".toList, "Jane Roe.".toList) := by
  decide

/-- C8: every extractor of the engine is a pure function of its input: two
calls with equal inputs return equal outputs. -/
theorem c8_extractors_deterministic :
    (∀ a b : List (List Char), a = b → guess_title a = guess_title b) ∧
    (∀ t u : List Char, ∀ ma mb : Option (List Char), t = u → ma = mb →
      find_people t ma = find_people u mb) ∧
    (∀ t u : List Char, t = u → find_year t = find_year u) ∧
    (∀ t u : List Char, t = u → find_publisher t = find_publisher u) ∧
    (∀ t u : List Char, t = u → guess_language t = guess_language u) ∧
    (∀ t u : List Char, t = u → clean_name t = clean_name u) := by
  refine ⟨?_, ?_, ?_, ?_, ?_, ?_⟩ <;> intros <;> subst_vars <;> rfl

/-- C8 witness: the determinism statements applied at concrete inputs. -/
theorem c8_witness :
    guess_title ["A Book".toList] = guess_title ["A Book".toList] ∧
    find_people "By X".toList none = find_people "By X".toList none ∧
    find_year "1987".toList = find_year "1987".toList ∧
    find_publisher "p".toList = find_publisher "p".toList ∧
    guess_language "s".toList = guess_language "s".toList ∧
    clean_name "Dr. A".toList = clean_name "Dr. A".toList :=
  ⟨c8_extractors_deterministic.1 _ _ rfl,
   c8_extractors_deterministic.2.1 _ _ _ _ rfl rfl,
   c8_extractors_deterministic.2.2.1 _ _ rfl,
   c8_extractors_deterministic.2.2.2.1 _ _ rfl,
   c8_extractors_deterministic.2.2.2.2.1 _ _ rfl,
   c8_extractors_deterministic.2.2.2.2.2 _ _ rfl⟩

/-! ### Claim C6: year range -/

theorem yearTokAt_shape {pd : Bool} {s t : List Char}
    (h : yearTokAt pd s = some t) :
    ∃ a b c d, t = [a, b, c, d] ∧ yearDigitsOk a b c d = true := by
  unfold yearTokAt at h
  split at h
  · simp at h
  · split at h
    · rename_i a b c d rest
      split at h
      · rename_i hcond
        injection h with h
        exact ⟨a, b, c, d, h.symm,
          ((Bool.and_eq_true _ _).mp hcond).1⟩
      · simp at h
    · simp at h

theorem firstYearTok_shape : ∀ (pd : Bool) (s t : List Char),
    firstYearTok pd s = some t →
    ∃ a b c d, t = [a, b, c, d] ∧ yearDigitsOk a b c d = true := by
  intro pd s
  induction s generalizing pd with
  | nil => intro t h; simp [firstYearTok] at h
  | cons c cs ih =>
    intro t h
    unfold firstYearTok at h
    cases hy : yearTokAt pd (c :: cs) with
    | some v =>
      rw [hy] at h
      simp at h
      exact h ▸ yearTokAt_shape hy
    | none =>
      rw [hy] at h
      simp at h
      exact ih _ _ h

theorem findYearGo_shape : ∀ (ts : List (List Char)) (text : List Char),
    findYearGo ts text = UNKNOWN ∨
    ∃ a b c d, findYearGo ts text = [a, b, c, d] ∧
      yearDigitsOk a b c d = true := by
  intro ts
  induction ts with
  | nil =>
    intro text
    unfold findYearGo
    cases hf : firstYearTok false text with
    | none => left; rfl
    | some t =>
      right
      obtain ⟨a, b, c, d, ht, hd⟩ := firstYearTok_shape _ _ _ hf
      exact ⟨a, b, c, d, ht, hd⟩
  | cons term ts ih =>
    intro text
    unfold findYearGo
    split
    · split
      · rename_i g0 hg0 y hy
        right
        obtain ⟨a, b, c, d, ht, hd⟩ := firstYearTok_shape _ _ _ hy
        exact ⟨a, b, c, d, ht, hd⟩
      · exact ih text
    · exact ih text

theorem yearDigitsOk_val {a b c d : Char} (h : yearDigitsOk a b c d = true) :
    1500 ≤ yearVal [a, b, c, d] ∧ yearVal [a, b, c, d] ≤ 2035 := by
  simp only [yearDigitsOk, between, isDigitCh, Bool.or_eq_true,
    Bool.and_eq_true, beq_iff_eq, decide_eq_true_eq, and_assoc] at h
  simp only [yearVal, List.foldl_cons, List.foldl_nil]
  rcases h with (⟨ha, hb1, hb2, hc1, hc2, hd1, hd2⟩ |
    ⟨ha, hb, hc1, hc2, hd1, hd2⟩) | ⟨ha, hb, hc, hd1, hd2⟩
  · have ha9 : a.toNat = 49 := by rw [ha]; rfl
    omega
  · have ha9 : a.toNat = 50 := by rw [ha]; rfl
    have hb9 : b.toNat = 48 := by rw [hb]; rfl
    omega
  · have ha9 : a.toNat = 50 := by rw [ha]; rfl
    have hb9 : b.toNat = 48 := by rw [hb]; rfl
    have hc9 : c.toNat = 51 := by rw [hc]; rfl
    omega

/-- C6: the year extractor returns the sentinel Unknown or a four-digit
token whose numeric value lies between 1500 and 2035, whichever marker or
fallback produced it. -/
theorem c6_find_year_range (text : List Char) :
    find_year text = UNKNOWN ∨
      ((find_year text).length = 4 ∧ 1500 ≤ yearVal (find_year text) ∧
        yearVal (find_year text) ≤ 2035) := by
  rcases findYearGo_shape yearTerms text with h | ⟨a, b, c, d, h, hd⟩
  · left; exact h
  · right
    rw [show find_year text = findYearGo yearTerms text from rfl, h]
    exact ⟨rfl, (yearDigitsOk_val hd).1, (yearDigitsOk_val hd).2⟩

/-! ### Scanner stepping lemmas -/

theorem scanWordB_cons_skip {α : Type} {f : List Char → Option α} {pw : Bool}
    {c : Char} {cs : List Char}
    (h : pw = true ∨ f (c :: cs) = none) :
    scanWordB f pw (c :: cs) = scanWordB f (isWordCh c) cs := by
  rcases h with h | h
  · subst h
    simp only [scanWordB]
    simp
  · cases pw <;> (simp only [scanWordB]; simp [h])

theorem scanWordB_after_word {α : Type} {f : List Char → Option α}
    (c0 : Char) (hw : isWordCh c0 = true) (c : Char) (cs : List Char) :
    scanWordB f (isWordCh c0) (c :: cs) = scanWordB f (isWordCh c) cs := by
  rw [hw]
  exact scanWordB_cons_skip (Or.inl rfl)

theorem scanWordB_cons_hit {α : Type} {f : List Char → Option α} {pw : Bool}
    {c : Char} {cs : List Char} {v : α} (hpw : pw = false)
    (h : f (c :: cs) = some v) :
    scanWordB f pw (c :: cs) = some v := by
  subst hpw
  unfold scanWordB
  simp [h]

theorem captureRest_clean {name : List Char} (hne : name ≠ [])
    (hhead : name.dropWhile isPySpace = name)
    (hcap : name.takeWhile (fun c => !(c == '\n' || c == ',')) = name) :
    captureRest (' ' :: name) = some name := by
  have hemp : name.isEmpty = false := by
    cases name with
    | nil => exact absurd rfl hne
    | cons a l => rfl
  unfold captureRest
  rw [List.dropWhile_cons_of_pos (by decide), hhead, hcap]
  simp [hemp]

/-! ### Claim C9 -/

/-- C9: a text of the form Edited by name (with a nonempty name that has
no comma, no newline and no leading whitespace) makes the author pattern
match the word by inside Edited by, so the author becomes the normalized
name, and the editor, equal to the author, is suppressed to Unknown. -/
theorem c9_edited_by_feeds_author (name : List Char) (hne : name ≠ [])
    (hhead : name.dropWhile isPySpace = name)
    (hcap : name.takeWhile (fun c => !(c == '\n' || c == ',')) = name) :
    find_people ("Edited by ".toList ++ name) none =
      (clean_name name, UNKNOWN) := by
  have hcr : captureRest (' ' :: name) = some name :=
    captureRest_clean hne hhead hcap
  have hauthor : scanWordB authorMatchAt false
      ("Edited by ".toList ++ name) = some name := by
    show scanWordB authorMatchAt false
      ('E' :: 'd' :: 'i' :: 't' :: 'e' :: 'd' :: ' ' :: 'b' :: 'y' :: ' ' ::
        name) = some name
    rw [scanWordB_cons_skip (Or.inr rfl), scanWordB_after_word 'E' rfl,
      scanWordB_after_word 'd' rfl, scanWordB_after_word 'i' rfl,
      scanWordB_after_word 't' rfl, scanWordB_after_word 'e' rfl,
      scanWordB_after_word 'd' rfl]
    refine scanWordB_cons_hit rfl ?_
    unfold authorMatchAt
    rw [show ciStarts "by".toList ('b' :: 'y' :: ' ' :: name) =
      some (' ' :: name) from rfl]
    simp [hcr]
  have heditor : scanWordB editorMatchAt false
      ("Edited by ".toList ++ name) = some name := by
    show scanWordB editorMatchAt false
      ('E' :: 'd' :: 'i' :: 't' :: 'e' :: 'd' :: ' ' :: 'b' :: 'y' :: ' ' ::
        name) = some name
    refine scanWordB_cons_hit rfl ?_
    unfold editorMatchAt
    rw [show ciStarts "edited by".toList
      ('E' :: 'd' :: 'i' :: 't' :: 'e' :: 'd' :: ' ' :: 'b' :: 'y' :: ' ' ::
        name) = some (' ' :: name) from rfl]
    simp [hcr]
  unfold find_people
  rw [hauthor, heditor]
  by_cases hu : clean_name name = UNKNOWN
  · simp only [hu]
    simp
  · simp only [if_pos (And.intro hu rfl), ne_eq, hu, not_false_iff]
    simp [hu]

/-- C9 witness: the theorem applied at the concrete name Jane Roe. -/
theorem c9_witness :
    find_people "Edited by Jane Roe".toList none =
      ("Jane Roe".toList, UNKNOWN) := by
  have h := c9_edited_by_feeds_author "Jane Roe".toList (by decide)
    (by decide) (by decide)
  exact h

/-! ### Claim C7 -/

theorem pyLower_nil_eq {s : List Char} (h : pyLower s = []) : s = [] := by
  cases s with
  | nil => rfl
  | cons c cs => simp [pyLower] at h

theorem pyLower_cons_eq {s : List Char} {p : Char} {ps : List Char}
    (h : pyLower s = p :: ps) :
    ∃ c cs, s = c :: cs ∧ c.toLower = p ∧ pyLower cs = ps := by
  cases s with
  | nil => simp [pyLower] at h
  | cons c cs =>
    simp only [pyLower, List.map_cons, List.cons.injEq] at h
    exact ⟨c, cs, rfl, h.1, h.2⟩

theorem ciStarts_append_of_lower : ∀ {pat s : List Char} (r : List Char),
    pyLower s = pat → ciStarts pat (s ++ r) = some r := by
  intro pat
  induction pat with
  | nil =>
    intro s r h
    rw [pyLower_nil_eq h]
    rfl
  | cons p ps ih =>
    intro s r h
    obtain ⟨c, cs, rfl, hc, hcs⟩ := pyLower_cons_eq h
    show ciStarts (p :: ps) (c :: (cs ++ r)) = some r
    simp only [ciStarts, hc, beq_self_eq_true, if_true]
    exact ih r hcs

theorem ciStarts_none_of_lower : ∀ {pat low s : List Char} (r : List Char),
    pyLower s = low → lowNotPre pat low = true →
    ciStarts pat (s ++ r) = none := by
  intro pat
  induction pat with
  | nil =>
    intro low s r _ hnp
    simp [lowNotPre] at hnp
  | cons p ps ih =>
    intro low s r hl hnp
    cases low with
    | nil => simp [lowNotPre] at hnp
    | cons l ls =>
      obtain ⟨c, cs, rfl, hc, hcs⟩ := pyLower_cons_eq hl
      unfold lowNotPre at hnp
      show ciStarts (p :: ps) (c :: (cs ++ r)) = none
      by_cases hpl : (p == l) = true
      · rw [if_pos hpl] at hnp
        simp only [ciStarts, hc, hpl, if_true]
        exact ih r hcs hnp
      · simp only [ciStarts, hc]
        rw [if_neg (by simpa using hpl)]

theorem takeWhile_eq_self_of_all {p : Char → Bool} :
    ∀ {l : List Char}, (∀ c ∈ l, p c = true) → l.takeWhile p = l := by
  intro l
  induction l with
  | nil => intro _; rfl
  | cons c cs ih =>
    intro h
    rw [List.takeWhile_cons_of_pos (h c (List.mem_cons_self c cs)),
      ih (fun x hx => h x (List.mem_cons_of_mem _ hx))]

theorem mem_of_mem_dropWhile {p : Char → Bool} {c : Char} :
    ∀ {l : List Char}, c ∈ l.dropWhile p → c ∈ l := by
  intro l
  induction l with
  | nil => intro h; simp [List.dropWhile] at h
  | cons a as ih =>
    intro h
    by_cases hp : p a = true
    · rw [List.dropWhile_cons_of_pos hp] at h
      exact List.mem_cons_of_mem _ (ih h)
    · rw [List.dropWhile_cons_of_neg (by simpa using hp)] at h
      exact h

theorem dropWhile_self_idem {α : Type} (p : α → Bool) :
    ∀ l : List α, (l.dropWhile p).dropWhile p = l.dropWhile p := by
  intro l
  induction l with
  | nil => rfl
  | cons a as ih =>
    by_cases hp : p a = true
    · rw [List.dropWhile_cons_of_pos hp]
      exact ih
    · rw [List.dropWhile_cons_of_neg (by simpa using hp),
        List.dropWhile_cons_of_neg (by simpa using hp)]

theorem pyStrip_dropWhile (r : List Char) :
    pyStrip (r.dropWhile isPySpace) = pyStrip r := by
  unfold pyStrip
  rw [dropWhile_self_idem]

theorem splitGo_no_break : ∀ (f : Nat) (s acc : List Char), s.length ≤ f →
    (∀ c ∈ s, isLineBreakCh c = false) →
    splitGo f acc s = [acc.reverse ++ s] := by
  intro f
  induction f with
  | zero =>
    intro s acc hlen _
    have hs : s = [] := List.eq_nil_of_length_eq_zero (Nat.le_zero.mp hlen)
    subst hs
    show [acc.reverse] = [acc.reverse ++ []]
    simp
  | succ f ih =>
    intro s acc hlen hnb
    cases s with
    | nil =>
      show [acc.reverse] = [acc.reverse ++ []]
      simp
    | cons c cs =>
      have hc : isLineBreakCh c = false := hnb c (List.mem_cons_self c cs)
      have hlen' : cs.length ≤ f := by simpa using hlen
      show (if isLineBreakCh c = true then
          acc.reverse :: splitAfterBreak (splitGo f []) c cs
        else splitGo f (c :: acc) cs) = [acc.reverse ++ c :: cs]
      rw [hc, if_neg (by simp)]
      rw [ih cs (c :: acc) hlen'
        (fun x hx => hnb x (List.mem_cons_of_mem _ hx))]
      simp

theorem pySplitlines_single {s : List Char} (hne : s ≠ [])
    (h : ∀ c ∈ s, isLineBreakCh c = false) : pySplitlines s = [s] := by
  cases s with
  | nil => exact absurd rfl hne
  | cons c cs =>
    show splitGo (c :: cs).length [] (c :: cs) = [c :: cs]
    rw [splitGo_no_break _ _ _ le_rfl h]
    simp

theorem labelTail_colon {r : List Char} (hg : r.dropWhile isPySpace ≠ [])
    (hnl : ∀ c ∈ r, isLineBreakCh c = false) :
    labelTail (':' :: r) = some (r.dropWhile isPySpace) := by
  have hcap : (r.dropWhile isPySpace).takeWhile (fun e => !(e == '\n')) =
      r.dropWhile isPySpace := by
    apply takeWhile_eq_self_of_all
    intro c hc
    have hb := hnl c (mem_of_mem_dropWhile hc)
    have h1 : (c == '\n') = false := by
      cases hb' : (c == '\n') with
      | false => rfl
      | true =>
        have hcn : c = '\n' := eq_of_beq hb'
        subst hcn
        exact absurd hb (by decide)
    simp [h1]
  have hemp : (r.dropWhile isPySpace).isEmpty = false := by
    cases hdw : r.dropWhile isPySpace with
    | nil => exact absurd hdw hg
    | cons a l => rfl
  unfold labelTail
  rw [List.dropWhile_cons_of_neg (by decide)]
  show (if (':' == ':' || ':' == '-') = true then _ else none) =
    some (r.dropWhile isPySpace)
  rw [if_pos (by decide)]
  rw [hcap]
  simp [hemp]

/-- C7 counterexample: a line with a publisher label but no colon or
hyphen after it is not matched by the primary pass (the separator class in
the source pattern is mandatory, not optional), and the fallback finds no
keyword, so the claimed remainder Oxford is not returned. -/
theorem c7_counterexample :
    find_publisher "Published by Oxford".toList = UNKNOWN ∧
      UNKNOWN ≠ "Oxford".toList := by
  decide

/-- C7 amended: the colon or hyphen after the label is mandatory; for
every single-line text of the form label, colon, remainder - the label one
of Published by, Publisher, Imprint, Printed by up to letter case, the
remainder free of line breaks with at least one non-whitespace character -
find_publisher returns the remainder after separator truncation,
whitespace collapsing and trimming whenever that result has length between
2 and 120. -/
theorem c7_amended_sep_mandatory (label r : List Char)
    (hlab : pyLower label = "published by".toList ∨
      pyLower label = "publisher".toList ∨
      pyLower label = "imprint".toList ∨
      pyLower label = "printed by".toList)
    (hlb : ∀ c ∈ label, isLineBreakCh c = false)
    (hrb : ∀ c ∈ r, isLineBreakCh c = false)
    (hg : r.dropWhile isPySpace ≠ [])
    (h2 : 2 ≤ (pubClean r).length) (h120 : (pubClean r).length ≤ 120) :
    find_publisher (label ++ ':' :: r) = pubClean r := by
  have hlt : labelTail (':' :: r) = some (r.dropWhile isPySpace) :=
    labelTail_colon hg hrb
  have hpl : pubLabelAt (label ++ ':' :: r) =
      some (r.dropWhile isPySpace) := by
    rcases hlab with hl | hl | hl | hl
    · unfold pubLabelAt
      rw [ciStarts_append_of_lower _ hl]
      simp [hlt]
    · unfold pubLabelAt
      rw [ciStarts_none_of_lower _ hl (by decide),
        ciStarts_append_of_lower _ hl]
      simp [hlt]
    · unfold pubLabelAt
      rw [ciStarts_none_of_lower _ hl (by decide),
        ciStarts_none_of_lower _ hl (by decide),
        ciStarts_append_of_lower _ hl]
      simp [hlt]
    · unfold pubLabelAt
      rw [ciStarts_none_of_lower _ hl (by decide),
        ciStarts_none_of_lower _ hl (by decide),
        ciStarts_none_of_lower _ hl (by decide),
        ciStarts_append_of_lower _ hl]
      simp [hlt]
  have hnil : label ≠ [] := by
    rcases hlab with h | h | h | h <;> intro hh <;> subst hh <;>
      simp [pyLower] at h
  have hline : lineCand (label ++ ':' :: r) = some (pubClean r) := by
    have hscan : scanWordB pubLabelAt false (label ++ ':' :: r) =
        some (r.dropWhile isPySpace) := by
      cases label with
      | nil => exact absurd rfl hnil
      | cons c cs =>
        rw [List.cons_append]
        rw [List.cons_append] at hpl
        exact scanWordB_cons_hit rfl hpl
    unfold lineCand
    rw [hscan]
    show (if 2 ≤ (collapseWs (pyStrip (firstSegment
          (pyStrip (r.dropWhile isPySpace))))).length ∧
        (collapseWs (pyStrip (firstSegment
          (pyStrip (r.dropWhile isPySpace))))).length ≤ 120 then
        some (collapseWs (pyStrip (firstSegment
          (pyStrip (r.dropWhile isPySpace)))))
      else none) = some (pubClean r)
    rw [pyStrip_dropWhile]
    exact if_pos ⟨h2, h120⟩
  have hone : pySplitlines (label ++ ':' :: r) = [label ++ ':' :: r] := by
    apply pySplitlines_single
    · cases label with
      | nil => simp
      | cons c cs => simp
    · intro c hc
      rcases List.mem_append.mp hc with hmem | hmem
      · exact hlb c hmem
      · rcases List.mem_cons.mp hmem with hcc | hmem
        · subst hcc; decide
        · exact hrb c hmem
  have hfirst : firstSomeList lineCand [label ++ ':' :: r] =
      some (pubClean r) := by
    unfold firstSomeList
    rw [hline]
    rfl
  unfold find_publisher
  rw [hone]
  show (match firstSomeList lineCand [label ++ ':' :: r] with
        | some c => c
        | none =>
          match firstSomeList lineFallback
              (List.take 80 [label ++ ':' :: r]) with
          | some s => s
          | none => UNKNOWN) = pubClean r
  rw [hfirst]

/-- C7 witness: the amended statement applied to the label Published by
and the remainder Oxford University Press. -/
theorem c7_witness :
    find_publisher "Published by: Oxford University Press".toList =
      "Oxford University Press".toList := by
  have h := c7_amended_sep_mandatory "Published by".toList
    " Oxford University Press".toList (Or.inl (by decide)) (by decide)
    (by decide) (by decide) (by decide) (by decide)
  exact h

/-! ### Claim C10 -/

theorem foldMax_const {f : Script → Nat} :
    ∀ (l : List Script) (best : Script × Nat),
      (∀ b ∈ l, f b ≤ best.2) →
      l.foldl (fun best b => if best.2 < f b then (b, f b) else best) best =
        best := by
  intro l
  induction l with
  | nil => intro best _; rfl
  | cons b bs ih =>
    intro best h
    rw [List.foldl_cons,
      if_neg (Nat.not_lt.mpr (h b (List.mem_cons_self b bs)))]
    exact ih best (fun x hx => h x (List.mem_cons_of_mem _ hx))

theorem foldMax_lt {f : Script → Nat} {m : Nat} :
    ∀ (l : List Script) (best : Script × Nat),
      (∀ b ∈ l, f b < m) → best.2 < m →
      (l.foldl (fun best b => if best.2 < f b then (b, f b) else best)
        best).2 < m := by
  intro l
  induction l with
  | nil => intro best _ hb; exact hb
  | cons b bs ih =>
    intro best h hb
    rw [List.foldl_cons]
    by_cases hlt : best.2 < f b
    · rw [if_pos hlt]
      exact ih _ (fun x hx => h x (List.mem_cons_of_mem _ hx))
        (h b (List.mem_cons_self b bs))
    · rw [if_neg hlt]
      exact ih _ (fun x hx => h x (List.mem_cons_of_mem _ hx)) hb

theorem maxScript_dev {s5 : List Char}
    (h : ∀ b, scriptCount s5 b ≤ scriptCount s5 Script.dev) :
    maxScript s5 = (Script.dev, scriptCount s5 Script.dev) := by
  unfold maxScript
  exact foldMax_const scriptTail _ (fun b _ => h b)

theorem maxScript_lat {s5 : List Char}
    (hmax : ∀ b, scriptCount s5 b ≤ scriptCount s5 Script.lat)
    (hstrict : ∀ b ∈ [Script.dev, Script.ben, Script.gur, Script.guj,
        Script.ori, Script.tam, Script.tel, Script.kan, Script.mal],
      scriptCount s5 b < scriptCount s5 Script.lat) :
    maxScript s5 = (Script.lat, scriptCount s5 Script.lat) := by
  have h1 : (List.foldl
      (fun best b =>
        if best.2 < scriptCount s5 b then (b, scriptCount s5 b) else best)
      (Script.dev, scriptCount s5 Script.dev)
      [Script.ben, Script.gur, Script.guj, Script.ori, Script.tam,
        Script.tel, Script.kan, Script.mal]).2 <
      scriptCount s5 Script.lat := by
    apply foldMax_lt
    · intro b hb
      exact hstrict b (List.mem_cons_of_mem _ hb)
    · exact hstrict Script.dev (List.mem_cons_self _ _)
  unfold maxScript
  rw [show scriptTail = [Script.ben, Script.gur, Script.guj, Script.ori,
    Script.tam, Script.tel, Script.kan, Script.mal] ++
    Script.lat :: [Script.ara, Script.cyr] from rfl]
  rw [List.foldl_append, List.foldl_cons, if_pos h1]
  exact foldMax_const _ _ (fun b _ => hmax b)

/-- C10: ties between buckets with the same maximal count go to the bucket
listed earlier in the counts dictionary: a qualifying sample whose
Devanagari count equals its Latin count, is at least 20 and is maximal
yields Hindi, and one whose Latin and Cyrillic counts are equal, at least
20 and strictly above every other bucket yields English. -/
theorem c10_language_tie_order :
    (∀ s : List Char,
      ¬(s.isEmpty = true ∨ (pyStrip s).length < 40) →
      scriptCount (s.take 5000) Script.dev =
        scriptCount (s.take 5000) Script.lat →
      20 ≤ scriptCount (s.take 5000) Script.dev →
      (∀ b, scriptCount (s.take 5000) b ≤
        scriptCount (s.take 5000) Script.dev) →
      guess_language s = "Hindi".toList) ∧
    (∀ s : List Char,
      ¬(s.isEmpty = true ∨ (pyStrip s).length < 40) →
      scriptCount (s.take 5000) Script.lat =
        scriptCount (s.take 5000) Script.cyr →
      20 ≤ scriptCount (s.take 5000) Script.lat →
      (∀ b, b ≠ Script.lat → b ≠ Script.cyr →
        scriptCount (s.take 5000) b < scriptCount (s.take 5000) Script.lat) →
      guess_language s = "English".toList) := by
  constructor
  · intro s hqual heq h20 hmax
    unfold guess_language
    rw [if_neg hqual]
    show (if (maxScript (s.take 5000)).2 < 20 then UNKNOWN
      else scriptLabel (maxScript (s.take 5000)).1) = "Hindi".toList
    rw [maxScript_dev hmax]
    rw [if_neg (Nat.not_lt.mpr h20)]
    rfl
  · intro s hqual heq h20 hstrict
    unfold guess_language
    rw [if_neg hqual]
    show (if (maxScript (s.take 5000)).2 < 20 then UNKNOWN
      else scriptLabel (maxScript (s.take 5000)).1) = "English".toList
    rw [maxScript_lat (fun b => ?_) (fun b hb => ?_)]
    · rw [if_neg (Nat.not_lt.mpr h20)]
      rfl
    · by_cases hbl : b = Script.lat
      · subst hbl; exact le_rfl
      · by_cases hbc : b = Script.cyr
        · subst hbc; exact le_of_eq heq.symm
        · exact le_of_lt (hstrict b hbl hbc)
    · have hbl : b ≠ Script.lat := by
        intro hh
        subst hh
        simp at hb
      have hbc : b ≠ Script.cyr := by
        intro hh
        subst hh
        simp at hb
      exact hstrict b hbl hbc

/-- C10 witness: the tie-break statements applied to concrete samples of
twenty Devanagari plus twenty Latin letters, and twenty Latin plus twenty
Cyrillic letters. -/
theorem c10_witness :
    guess_language (List.replicate 20 (Char.ofNat 0x0905) ++
        List.replicate 20 'a') = "Hindi".toList ∧
    guess_language (List.replicate 20 'a' ++
        List.replicate 20 (Char.ofNat 0x0431)) = "English".toList :=
  ⟨c10_language_tie_order.1 _ (by decide) (by decide) (by decide)
      (by decide),
   c10_language_tie_order.2 _ (by decide) (by decide) (by decide)
      (by decide)⟩

/-! ### Claim C5 -/

theorem length_dropWhile_le' (p : Char → Bool) :
    ∀ l : List Char, (l.dropWhile p).length ≤ l.length := by
  intro l
  induction l with
  | nil => exact le_rfl
  | cons a as ih =>
    by_cases hp : p a = true
    · rw [List.dropWhile_cons_of_pos hp]
      exact Nat.le_succ_of_le ih
    · rw [List.dropWhile_cons_of_neg (by simpa using hp)]

theorem head_false_of_dropWhile_fix {p : Char → Bool} {c : Char}
    {t : List Char} (h : (c :: t).dropWhile p = c :: t) : p c = false := by
  cases hp : p c with
  | false => rfl
  | true =>
    rw [List.dropWhile_cons_of_pos hp] at h
    have hlen := length_dropWhile_le' p t
    rw [h] at hlen
    simp at hlen

theorem pyStrip_idem (s : List Char) : pyStrip (pyStrip s) = pyStrip s := by
  have haa : (s.dropWhile isPySpace).dropWhile isPySpace =
      s.dropWhile isPySpace := dropWhile_self_idem isPySpace s
  set a := s.dropWhile isPySpace with ha
  set u := a.reverse.dropWhile isPySpace with hu
  have huu : u.dropWhile isPySpace = u := by
    rw [hu]
    exact dropWhile_self_idem isPySpace a.reverse
  have hdec : a = u.reverse ++ (a.reverse.takeWhile isPySpace).reverse := by
    have hsplit := List.takeWhile_append_dropWhile (p := isPySpace)
      (l := a.reverse)
    calc a = a.reverse.reverse := (List.reverse_reverse a).symm
    _ = (a.reverse.takeWhile isPySpace ++ u).reverse := by rw [hsplit]
    _ = u.reverse ++ (a.reverse.takeWhile isPySpace).reverse :=
      List.reverse_append _ _
  have hur : u.reverse.dropWhile isPySpace = u.reverse := by
    cases hcase : u.reverse with
    | nil => rfl
    | cons x xs =>
      have hax : a = x :: (xs ++ (a.reverse.takeWhile isPySpace).reverse) := by
        conv_lhs => rw [hdec, hcase]
        rfl
      have hfix : (x :: (xs ++ (a.reverse.takeWhile isPySpace).reverse)
          ).dropWhile isPySpace =
          x :: (xs ++ (a.reverse.takeWhile isPySpace).reverse) := by
        rw [← hax]
        exact haa
      have hpx : isPySpace x = false := head_false_of_dropWhile_fix hfix
      rw [List.dropWhile_cons_of_neg (by simp [hpx])]
  show ((u.reverse.dropWhile isPySpace).reverse.dropWhile
    isPySpace).reverse = u.reverse
  rw [hur, List.reverse_reverse, huu]

/-- No two adjacent whitespace characters, the shape invariant of the
output of the whitespace-collapsing substitution. -/
def NoRun (s : List Char) : Prop :=
  List.Chain' (fun a b => ¬(isPySpace a = true ∧ isPySpace b = true)) s

theorem noRun_dropWhile (q : Char → Bool) :
    ∀ {l : List Char}, NoRun l → NoRun (l.dropWhile q) := by
  intro l
  induction l with
  | nil => intro h; exact h
  | cons a as ih =>
    intro h
    by_cases hq : q a = true
    · rw [List.dropWhile_cons_of_pos hq]
      exact ih h.tail
    · rw [List.dropWhile_cons_of_neg (by simpa using hq)]
      exact h

theorem noRun_reverse {l : List Char} (h : NoRun l) : NoRun l.reverse := by
  unfold NoRun at h ⊢
  rw [List.chain'_reverse]
  exact List.Chain'.imp (fun a b hab hba => hab ⟨hba.2, hba.1⟩) h

theorem noRun_pyStrip {l : List Char} (h : NoRun l) : NoRun (pyStrip l) :=
  noRun_reverse (noRun_dropWhile _ (noRun_reverse (noRun_dropWhile _ h)))

theorem collapseGo_head : ∀ (f : Nat) (s : List Char) (x : Char)
    (xs : List Char), collapseGo f s = x :: xs →
    ∃ y ys, s = y :: ys ∧ isPySpace x = isPySpace y := by
  intro f s x xs h
  match f, s with
  | 0, s => simp [collapseGo] at h
  | f + 1, [] => simp [collapseGo] at h
  | f + 1, c :: cs =>
    by_cases hc : isPySpace c = true
    · cases cs with
      | nil =>
        rw [show collapseGo (f + 1) [c] = [c] by simp [collapseGo, hc]] at h
        obtain ⟨hx, _⟩ := List.cons.injEq .. ▸ h
        exact ⟨c, [], rfl, by rw [hx]⟩
      | cons d ds =>
        by_cases hd : isPySpace d = true
        · rw [show collapseGo (f + 1) (c :: d :: ds) =
            ' ' :: collapseGo f ((d :: ds).dropWhile isPySpace) by
              simp [collapseGo, hc, hd]] at h
          obtain ⟨hx, _⟩ := List.cons.injEq .. ▸ h
          exact ⟨c, d :: ds, rfl, by rw [← hx, hc]; rfl⟩
        · rw [show collapseGo (f + 1) (c :: d :: ds) =
            c :: collapseGo f (d :: ds) by
              simp [collapseGo, hc, hd]] at h
          obtain ⟨hx, _⟩ := List.cons.injEq .. ▸ h
          exact ⟨c, d :: ds, rfl, by rw [hx]⟩
    · rw [show collapseGo (f + 1) (c :: cs) = c :: collapseGo f cs by
        simp [collapseGo, hc]] at h
      obtain ⟨hx, _⟩ := List.cons.injEq .. ▸ h
      exact ⟨c, cs, rfl, by rw [hx]⟩

theorem noRun_collapseGo : ∀ (f : Nat) (s : List Char),
    NoRun (collapseGo f s) := by
  intro f
  induction f with
  | zero => intro s; exact List.chain'_nil
  | succ f ih =>
    intro s
    cases s with
    | nil => exact List.chain'_nil
    | cons c cs =>
      by_cases hc : isPySpace c = true
      · cases cs with
        | nil =>
          rw [show collapseGo (f + 1) [c] = [c] by simp [collapseGo, hc]]
          exact List.chain'_singleton c
        | cons d ds =>
          by_cases hd : isPySpace d = true
          · rw [show collapseGo (f + 1) (c :: d :: ds) =
              ' ' :: collapseGo f ((d :: ds).dropWhile isPySpace) by
                simp [collapseGo, hc, hd]]
            unfold NoRun
            rw [List.chain'_cons']
            refine ⟨?_, ih _⟩
            intro y hy
            cases hX : collapseGo f ((d :: ds).dropWhile isPySpace) with
            | nil => rw [hX] at hy; simp at hy
            | cons z zs =>
              rw [hX] at hy
              simp at hy
              subst hy
              obtain ⟨w, ws, hws, hstat⟩ := collapseGo_head _ _ _ _ hX
              have hw : isPySpace w = false := by
                have hh := List.head?_dropWhile_not isPySpace (d :: ds)
                rw [hws] at hh
                simpa using hh
              intro hcontra
              rw [hstat, hw] at hcontra
              exact absurd hcontra.2 (by simp)
          · rw [show collapseGo (f + 1) (c :: d :: ds) =
              c :: collapseGo f (d :: ds) by simp [collapseGo, hc, hd]]
            unfold NoRun
            rw [List.chain'_cons']
            refine ⟨?_, ih _⟩
            intro y hy
            cases hX : collapseGo f (d :: ds) with
            | nil => rw [hX] at hy; simp at hy
            | cons z zs =>
              rw [hX] at hy
              simp at hy
              subst hy
              obtain ⟨w, ws, hws, hstat⟩ := collapseGo_head _ _ _ _ hX
              have hwd : w = d := by
                obtain ⟨h1, _⟩ := List.cons.injEq .. ▸ hws
                exact h1.symm
              intro hcontra
              rw [hstat, hwd] at hcontra
              exact hd hcontra.2
      · rw [show collapseGo (f + 1) (c :: cs) = c :: collapseGo f cs by
          simp [collapseGo, hc]]
        unfold NoRun
        rw [List.chain'_cons']
        refine ⟨?_, ih _⟩
        intro y _
        intro hcontra
        exact absurd hcontra.1 (by simp [hc])

theorem collapseGo_eq_self : ∀ (f : Nat) (s : List Char), s.length ≤ f →
    NoRun s → collapseGo f s = s := by
  intro f
  induction f with
  | zero =>
    intro s hlen _
    have hs : s = [] := List.eq_nil_of_length_eq_zero (Nat.le_zero.mp hlen)
    subst hs
    rfl
  | succ f ih =>
    intro s hlen hnr
    cases s with
    | nil => rfl
    | cons c cs =>
      by_cases hc : isPySpace c = true
      · cases cs with
        | nil => simp [collapseGo, hc]
        | cons d ds =>
          by_cases hd : isPySpace d = true
          · exact absurd (List.chain'_cons.mp hnr).1
              (by simp [hc, hd])
          · rw [show collapseGo (f + 1) (c :: d :: ds) =
              c :: collapseGo f (d :: ds) by simp [collapseGo, hc, hd]]
            rw [ih (d :: ds) (by simpa using hlen) hnr.tail]
      · rw [show collapseGo (f + 1) (c :: cs) = c :: collapseGo f cs by
          simp [collapseGo, hc]]
        rw [ih cs (by simpa using hlen) hnr.tail]

theorem collapseWs_eq_self {s : List Char} (h : NoRun s) :
    collapseWs s = s :=
  collapseGo_eq_self s.length s le_rfl h

theorem honSubGo_eq_self : ∀ (f : Nat) (pw : Bool) (s : List Char),
    hasHonAux pw s = false → honSubGo f pw s = s := by
  intro f
  induction f with
  | zero => intro pw s _; rfl
  | succ f ih =>
    intro pw s h
    cases s with
    | nil => rfl
    | cons c cs =>
      unfold hasHonAux at h
      rcases Bool.or_eq_false_iff.mp h with ⟨h1, h2⟩
      cases pw with
      | true =>
        show (match (none : Option Nat) with
          | some n => honSubGo f (isWordCh (lastOfTake n (c :: cs)))
              (cs.drop (n - 1))
          | none => c :: honSubGo f (isWordCh c) cs) = c :: cs
        rw [ih _ _ h2]
      | false =>
        have hm : honMatchLen (c :: cs) = none := by
          cases hmm : honMatchLen (c :: cs) with
          | none => rfl
          | some n => rw [hmm] at h1; simp at h1
        show (match (if false then none else honMatchLen (c :: cs)) with
          | some n => honSubGo f (isWordCh (lastOfTake n (c :: cs)))
              (cs.drop (n - 1))
          | none => c :: honSubGo f (isWordCh c) cs) = c :: cs
        rw [if_neg (by simp), hm, ih _ _ h2]

/-- C5 counterexample: the name normalizer is not idempotent; removing the
honorific from John, Dr. exposes a trailing comma that only a second
application strips. -/
theorem c5_counterexample :
    clean_name (clean_name "John, Dr.".toList) ≠
      clean_name "John, Dr.".toList := by
  decide

/-- C5 amended: one application of the normalizer is a fixed point of a
second one whenever its result neither ends in a comma or semicolon (an
honorific removal can expose one, as in John, Dr.) nor still contains an
honorific-pattern match (a removal can splice one together, as in
Ph.Dr.D.). -/
theorem c5_amended_conditional_idem (x : List Char)
    (h1 : endsWithSep (clean_name x) = false)
    (h2 : hasHonAux false (clean_name x) = false) :
    clean_name (clean_name x) = clean_name x := by
  by_cases hy :
    (pyStrip (collapseWs (honSub (dropTrailingSep (pyStrip x))))).isEmpty =
      true
  · have hcx : clean_name x = UNKNOWN := by
      unfold clean_name
      rw [if_pos hy]
    rw [hcx]
    decide
  · have hcx : clean_name x =
        pyStrip (collapseWs (honSub (dropTrailingSep (pyStrip x)))) := by
      unfold clean_name
      rw [if_neg hy]
    set y := pyStrip (collapseWs (honSub (dropTrailingSep (pyStrip x))))
      with hy_def
    rw [hcx] at h1 h2 ⊢
    have hstrip : pyStrip y = y := by
      rw [hy_def]
      exact pyStrip_idem _
    have hdrop : dropTrailingSep y = y := by
      unfold dropTrailingSep
      unfold endsWithSep at h1
      cases hgl : y.getLast? with
      | none => rfl
      | some c =>
        rw [hgl] at h1
        have h1' : (c == ',' || c == ';') = false := h1
        show (if (c == ',' || c == ';') = true then y.dropLast else y) = y
        rw [if_neg (by simp [h1'])]
    have hhon : honSub y = y := honSubGo_eq_self _ _ _ h2
    have hcol : collapseWs y = y := by
      apply collapseWs_eq_self
      rw [hy_def]
      exact noRun_pyStrip (noRun_collapseGo _ _)
    unfold clean_name
    rw [hstrip, hdrop, hhon, hcol, hstrip]
    rw [if_neg hy]

/-- C5 witness: the amended idempotence applied to John A. Smith. -/
theorem c5_witness :
    endsWithSep (clean_name "John A. Smith".toList) = false ∧
    hasHonAux false (clean_name "John A. Smith".toList) = false ∧
    clean_name (clean_name "John A. Smith".toList) =
      clean_name "John A. Smith".toList :=
  ⟨by decide, by decide,
   c5_amended_conditional_idem "John A. Smith".toList (by decide)
     (by decide)⟩

/-! ### Concrete evaluations of the embedding, matching the behaviour of
the CPython reference on the same inputs -/

example : clean_name "  Dr. Jane Roe. ".toList = "Jane Roe.".toList := by decide
example : clean_name "John, Dr.".toList = "John,".toList := by decide
example : clean_name "John,".toList = "John".toList := by decide
example : clean_name "".toList = UNKNOWN := by decide
example :
    guess_title ["INTRODUCTION".toList, "The Art of Systems Design".toList,
      "by A. Author".toList] = "INTRODUCTION".toList := by decide
example :
    find_people "Written by John A. Smith, Edited by Dr. Jane Roe.".toList none =
      ("John A. Smith".toList, "Jane Roe.".toList) := by decide
example :
    find_people "Edited by Jane Roe".toList none =
      ("Jane Roe".toList, UNKNOWN) := by decide
example :
    find_people "By Maria Lopez, Edited by Maria Lopez".toList none =
      ("Maria Lopez".toList, UNKNOWN) := by decide
example : find_year "© 1987 Springer Publishing".toList = "1987".toList := by
  decide
example : find_year "random text 2041 nothing else".toList = UNKNOWN := by
  decide
example : find_year "Copyright 1776 and 2015".toList = "1776".toList := by
  decide
example :
    find_publisher "Published by: Oxford University Press; Tel: 123-456".toList =
      "Oxford University Press".toList := by decide
example : find_publisher "Published by Oxford".toList = UNKNOWN := by decide
example :
    pySplitlines "a\r\nb\n\nc\n".toList =
      ["a".toList, "b".toList, [], "c".toList] := by decide
example : guess_language "hi".toList = UNKNOWN := by decide
example :
    guess_language (List.replicate 20 (Char.ofNat 0x0905) ++
      List.replicate 20 'a') = "Hindi".toList := by decide
example :
    guess_language (List.replicate 20 'a' ++
      List.replicate 20 (Char.ofNat 0x0431)) = "English".toList := by decide
example : natStr 120 = "120".toList := by decide
example :
    parse_pdf (Except.error ()) true "x".toList = failRecord := by decide

end AutoCatalog
